import Mathlib

/-!
Verification of the lexer engine in `parser/lexer/lexer.go`.

The engine is embedded shallowly: Go runes (`int32`) become `Int` with the
end-of-input sentinel `-1`; the input string is modelled as its list of decoded
characters, so every character occupies one unit of the offset space and a
successfully consumed character is recorded with width `1` (width `0` once the
buffer is exhausted), which matches the Go byte-offset cursor on width-uniform
(e.g. ASCII) text.  The mutable `*lexer` receiver becomes explicit state
passing: each Go method `func (l *lexer) f(...) T` is a Lean function
`Lexer → ... → T × Lexer` (or `Lexer → ... → Lexer` when it returns nothing).
-/

/-- The rune value of a character (Go runes, `int32`, are modelled as
mathematical integers throughout). -/
def rn (c : Char) : Int := (c.toNat : Int)

/-- `const eof rune = -1` -/
def eof : Int := -1

/-- `file.Location`: 1-based line and 0-based column (both Go `int`s; the
engine only ever produces the values counted by `loc` below, which are
non-negative). -/
structure Location where
  line : Nat
  column : Nat
  deriving DecidableEq, Repr

/-- Modelled from the spec: the token kinds are an open enumeration defined by
external token-classification states; the sibling file of the package that
declares `Kind` and its `EOF` constant is not part of the given sources, and
only the end-of-input kind is used by the engine itself. -/
inductive Kind where
  | EOF
  | other (tag : String)
  deriving DecidableEq, Repr

/-- Modelled from the spec: a token is `{ Kind, Value, Location }` (declared in
a sibling file of the package that is not part of the given sources).  The
value is kept as a character list, matching the unit-width text model. -/
structure Token where
  location : Location
  kind : Kind
  value : List Char
  deriving DecidableEq, Repr

/-- Modelled from the spec: an error record is `{ Location, Message }`
(`file.Error` lives in the external `file` package; the engine only constructs
it with these two fields). -/
structure FileError where
  location : Location
  message : String
  deriving DecidableEq, Repr

/-- The lexer state of `lexer.go`.  The Go field `end` is renamed `endPos`
(`end` is reserved in Lean); the `state` field (the pending state function) is
part of the driver loop, not of the engine operations modelled here. -/
@[ext]
structure Lexer where
  input : List Char
  tokens : List Token
  start : Int
  endPos : Int
  width : Int
  err : Option FileError
  deriving DecidableEq, Repr

/-- The character of `input` at offset `i`, as a rune.  Callers guard
`i < length`; the Go original would panic on a negative offset (no operation
below reaches one), here such an offset reads index `0`. -/
def charAt (input : List Char) (i : Int) : Int :=
  match input.get? i.toNat with
  | some c => rn c
  | none => eof

/-- `strings.ContainsRune(valid, r)`.  The valid set is a Go string literal,
i.e. a sequence of characters, so the sentinel `-1` is never a member. -/
def containsRune (valid : List Char) (r : Int) : Bool :=
  valid.any (fun c => rn c == r)

namespace Lexer

/-- `func (l *lexer) next() rune` -/
def next (l : Lexer) : Int × Lexer :=
  if l.input.length ≤ l.endPos then
    (eof, { l with width := 0 })
  else
    (charAt l.input l.endPos, { l with width := 1, endPos := l.endPos + 1 })

/-- `func (l *lexer) backup()` -/
def backup (l : Lexer) : Lexer :=
  { l with endPos := l.endPos - l.width }

/-- `func (l *lexer) peek() rune` -/
def peek (l : Lexer) : Int × Lexer :=
  ((next l).1, backup (next l).2)

/-- `func (l *lexer) word() string` -/
def word (l : Lexer) : List Char :=
  (l.input.take l.endPos.toNat).drop l.start.toNat

/-- The loop body of `func (l *lexer) loc(pos int) file.Location`: scan the
runes of the input from the beginning, breaking when the running index reaches
`pos`; a newline bumps the line and resets the column, any other character
bumps the column. -/
def locAux : List Char → Nat → Int → Nat → Nat → Location
  | [], _, _, line, column => ⟨line, column⟩
  | ch :: rest, i, pos, line, column =>
    if (i : Int) = pos then ⟨line, column⟩
    else if ch = '\n' then locAux rest (i + 1) pos (line + 1) 0
    else locAux rest (i + 1) pos line (column + 1)

/-- `func (l *lexer) loc(pos int) file.Location` -/
def loc (l : Lexer) (pos : Int) : Location :=
  locAux l.input 0 pos 1 0

/-- `func (l *lexer) emitValue(t Kind, value string)` -/
def emitValue (l : Lexer) (t : Kind) (value : List Char) : Lexer :=
  { l with tokens := l.tokens ++ [⟨l.loc l.start, t, value⟩], start := l.endPos }

/-- `func (l *lexer) emit(t Kind)` -/
def emit (l : Lexer) (t : Kind) : Lexer :=
  l.emitValue t l.word

/-- `func (l *lexer) emitEOF()`: the location is computed from `l.start - 1`
("point to previous position for better error messages"); the token's value is
the zero value of the string type. -/
def emitEOF (l : Lexer) : Lexer :=
  { l with tokens := l.tokens ++ [⟨l.loc (l.start - 1), Kind.EOF, []⟩], start := l.endPos }

/-- `func (l *lexer) ignore()` -/
def ignore (l : Lexer) : Lexer :=
  { l with start := l.endPos }

/-- `func (l *lexer) error(format string, ...)`: record the diagnostic at
`end - 1` only when none is recorded yet.  The Go method also returns the nil
state function, halting the driver loop; the driver is outside the engine
modelled here, so only the state effect is kept. -/
def error (l : Lexer) (message : String) : Lexer :=
  if l.err = none then
    { l with err := some ⟨l.loc (l.endPos - 1), message⟩ }
  else l

/-- `func (l *lexer) accept(valid string) bool` -/
def accept (l : Lexer) (valid : List Char) : Bool × Lexer :=
  if containsRune valid (next l).1 then (true, (next l).2)
  else (false, backup (next l).2)

/-- A character's rune value is never negative, so it is never the sentinel. -/
def rn_nonneg : ∀ c : Char, 0 ≤ rn c := by
  intro c
  simp [rn]

/-- The end-of-input sentinel is distinct from every character's rune value. -/
def eof_ne_rn : ∀ c : Char, eof ≠ rn c := by
  intro c h
  have h2 := rn_nonneg c
  rw [← h] at h2
  simp only [eof] at h2
  omega

/-- Fact needed for termination of `acceptRun`: the valid set never contains
the end-of-input sentinel. -/
def containsRune_eof_eq_false : ∀ valid : List Char, containsRune valid eof = false := by
  intro valid
  simp only [containsRune, List.any_eq_false, beq_iff_eq]
  intro c _
  exact (eof_ne_rn c).symm

/-- Facts needed for termination of `acceptRun` and `scanString`: `next`
preserves the input, moves the head forward by at most one, advances exactly
when the head is strictly inside the buffer, and is the identity on the head
(returning `eof`) once the buffer is exhausted. -/
def next_progress : ∀ l : Lexer, (next l).2.input = l.input ∧
    l.endPos ≤ (next l).2.endPos ∧ (next l).2.endPos ≤ l.endPos + 1 ∧
    (l.endPos < l.input.length → (next l).2.endPos = l.endPos + 1) ∧
    (l.input.length ≤ l.endPos → (next l).2.endPos = l.endPos ∧ (next l).1 = eof) := by
  intro l
  unfold next
  split
  · rename_i hc
    dsimp only
    exact ⟨rfl, le_refl _, by omega, fun h => absurd h (by omega), fun _ => ⟨rfl, rfl⟩⟩
  · rename_i hc
    dsimp only
    exact ⟨rfl, by omega, by omega, fun _ => rfl, fun h => absurd h (by omega)⟩

/-- `func (l *lexer) acceptRun(valid string)` -/
def acceptRun (l : Lexer) (valid : List Char) : Lexer :=
  if h : containsRune valid (next l).1 then acceptRun (next l).2 valid
  else backup (next l).2
termination_by (l.input.length - l.endPos).toNat
decreasing_by
  obtain ⟨hi, _, _, hlt, hend⟩ := next_progress l
  rw [hi]
  by_cases hc : l.endPos < l.input.length
  · have := hlt hc; omega
  · exfalso
    have := (hend (by omega)).2
    rw [this, containsRune_eof_eq_false] at h
    exact Bool.false_ne_true h

/-- The loop body of `func (l *lexer) acceptWord(word string) bool`: `pos` is
the saved entry offset, restored wholesale on the first mismatch. -/
def acceptWordAux (pos : Int) : Lexer → List Char → Bool × Lexer
  | l, [] => (true, l)
  | l, ch :: rest =>
    if (next l).1 ≠ rn ch then (false, { (next l).2 with endPos := pos })
    else acceptWordAux pos (next l).2 rest

/-- `func (l *lexer) acceptWord(word string) bool` -/
def acceptWord (l : Lexer) (w : List Char) : Bool × Lexer :=
  acceptWordAux l.endPos l w

end Lexer

/-- `func lower(ch rune) rune { return ('a' - 'A') | ch }` (bitwise or on
two's-complement integers, as in Go). -/
def lower (ch : Int) : Int := Int.lor (rn 'a' - rn 'A') ch

/-- `func digitVal(ch rune) int` -/
def digitVal (ch : Int) : Int :=
  if rn '0' ≤ ch ∧ ch ≤ rn '9' then ch - rn '0'
  else if rn 'a' ≤ lower ch ∧ lower ch ≤ rn 'f' then lower ch - rn 'a' + 10
  else 16

namespace Lexer

/-- `func (l *lexer) scanDigits(ch rune, base, n int) rune`: while the budget
is positive and the current character is a valid digit, consume the following
character; a leftover budget reports "invalid char escape". -/
def scanDigits (l : Lexer) (ch : Int) (base : Int) : Nat → Int × Lexer
  | 0 => (ch, l)
  | n + 1 =>
    if digitVal ch < base then scanDigits (next l).2 (next l).1 base n
    else (ch, l.error "invalid char escape")

/-- `func (l *lexer) scanEscape(quote rune) rune` -/
def scanEscape (l : Lexer) (quote : Int) : Int × Lexer :=
  let p := next l
  if p.1 = rn 'a' ∨ p.1 = rn 'b' ∨ p.1 = rn 'f' ∨ p.1 = rn 'n' ∨ p.1 = rn 'r' ∨
      p.1 = rn 't' ∨ p.1 = rn 'v' ∨ p.1 = rn '\\' ∨ p.1 = quote then
    next p.2
  else if p.1 = rn '0' ∨ p.1 = rn '1' ∨ p.1 = rn '2' ∨ p.1 = rn '3' ∨ p.1 = rn '4' ∨
      p.1 = rn '5' ∨ p.1 = rn '6' ∨ p.1 = rn '7' then
    p.2.scanDigits p.1 8 3
  else if p.1 = rn 'x' then
    (next p.2).2.scanDigits (next p.2).1 16 2
  else if p.1 = rn 'u' then
    (next p.2).2.scanDigits (next p.2).1 16 4
  else if p.1 = rn 'U' then
    (next p.2).2.scanDigits (next p.2).1 16 8
  else
    (p.1, p.2.error "invalid char escape")

/-- Fact needed for later proofs and termination: `error` only touches the
`err` field. -/
def error_fields : ∀ (l : Lexer) (m : String), (l.error m).input = l.input ∧
    (l.error m).endPos = l.endPos ∧ (l.error m).start = l.start ∧
    (l.error m).width = l.width ∧ (l.error m).tokens = l.tokens := by
  intro l m
  unfold error
  split <;> exact ⟨rfl, rfl, rfl, rfl, rfl⟩

/-- Fact needed for termination of `scanString`: `scanDigits` preserves the
input, never rewinds, and at the end of the buffer neither moves nor invents a
character (it hands back its argument or the sentinel). -/
def scanDigits_progress : ∀ (n : Nat) (l : Lexer) (ch : Int) (base : Int),
    (l.scanDigits ch base n).2.input = l.input ∧
    l.endPos ≤ (l.scanDigits ch base n).2.endPos ∧
    (l.input.length ≤ l.endPos → (l.scanDigits ch base n).2.endPos = l.endPos ∧
      ((l.scanDigits ch base n).1 = ch ∨ (l.scanDigits ch base n).1 = eof)) := by
  intro n
  induction n with
  | zero => intro l ch base; exact ⟨rfl, le_refl _, fun _ => ⟨rfl, Or.inl rfl⟩⟩
  | succ m ih =>
    intro l ch base
    simp only [scanDigits]
    split
    · obtain ⟨hi, hmono, _, _, hend⟩ := next_progress l
      obtain ⟨ih1, ih2, ih3⟩ := ih (next l).2 (next l).1 base
      rw [hi] at ih1
      refine ⟨ih1, by omega, ?_⟩
      intro hatend
      obtain ⟨he1, he2⟩ := hend hatend
      have hlen2 : ((next l).2.input.length : Int) ≤ (next l).2.endPos := by
        rw [hi, he1]; exact hatend
      obtain ⟨ih3a, ih3b⟩ := ih3 hlen2
      refine ⟨by omega, ?_⟩
      rcases ih3b with h | h
      · exact Or.inr (h.trans he2)
      · exact Or.inr h
    · dsimp only
      obtain ⟨he1, he2, _⟩ := error_fields l "invalid char escape"
      exact ⟨he1, by omega, fun _ => ⟨by omega, Or.inl rfl⟩⟩

/-- Fact needed for termination of `scanString`: `scanEscape` preserves the
input, never rewinds, strictly advances when the head is inside the buffer,
and at the end of the buffer stays put and returns the sentinel. -/
def scanEscape_progress : ∀ (l : Lexer) (q : Int),
    (scanEscape l q).2.input = l.input ∧
    l.endPos ≤ (scanEscape l q).2.endPos ∧
    (l.endPos < l.input.length → l.endPos < (scanEscape l q).2.endPos) ∧
    (l.input.length ≤ l.endPos → (scanEscape l q).2.endPos = l.endPos ∧ (scanEscape l q).1 = eof) := by
  intro l q
  obtain ⟨hi, hmono, hub, hlt, hend⟩ := next_progress l
  simp only [scanEscape]
  split
  · -- single-letter escape: one further next
    obtain ⟨hi2, hmono2, hub2, hlt2, hend2⟩ := next_progress (next l).2
    refine ⟨by rw [hi2, hi], by omega, fun h => by have := hlt h; omega, ?_⟩
    intro hatend
    obtain ⟨he1, he2⟩ := hend hatend
    obtain ⟨he21, he22⟩ := hend2 (by rw [hi, he1]; exact hatend)
    exact ⟨by omega, he22⟩
  · split
    · -- octal escape: the triggering digit was already consumed
      obtain ⟨hd1, hd2, hd3⟩ := scanDigits_progress 3 (next l).2 (next l).1 8
      rename_i hcase
      refine ⟨by rw [hd1, hi], by omega, fun h => by have := hlt h; omega, ?_⟩
      intro hatend
      exfalso
      obtain ⟨he1, he2⟩ := hend hatend
      rw [he2] at hcase
      rcases hcase with h | h | h | h | h | h | h | h <;> exact eof_ne_rn _ h
    · split
      · -- \x escape
        obtain ⟨hi2, hmono2, hub2, hlt2, hend2⟩ := next_progress (next l).2
        obtain ⟨hd1, hd2, hd3⟩ := scanDigits_progress 2 (next (next l).2).2 (next (next l).2).1 16
        rename_i hcase
        refine ⟨by rw [hd1, hi2, hi], by omega, fun h => by have := hlt h; omega, ?_⟩
        intro hatend
        exfalso
        obtain ⟨he1, he2⟩ := hend hatend
        rw [he2] at hcase
        exact eof_ne_rn _ hcase
      · split
        · -- \u escape
          obtain ⟨hi2, hmono2, hub2, hlt2, hend2⟩ := next_progress (next l).2
          obtain ⟨hd1, hd2, hd3⟩ := scanDigits_progress 4 (next (next l).2).2 (next (next l).2).1 16
          rename_i hcase
          refine ⟨by rw [hd1, hi2, hi], by omega, fun h => by have := hlt h; omega, ?_⟩
          intro hatend
          exfalso
          obtain ⟨he1, he2⟩ := hend hatend
          rw [he2] at hcase
          exact eof_ne_rn _ hcase
        · split
          · -- \U escape
            obtain ⟨hi2, hmono2, hub2, hlt2, hend2⟩ := next_progress (next l).2
            obtain ⟨hd1, hd2, hd3⟩ := scanDigits_progress 8 (next (next l).2).2 (next (next l).2).1 16
            rename_i hcase
            refine ⟨by rw [hd1, hi2, hi], by omega, fun h => by have := hlt h; omega, ?_⟩
            intro hatend
            exfalso
            obtain ⟨he1, he2⟩ := hend hatend
            rw [he2] at hcase
            exact eof_ne_rn _ hcase
          · -- invalid marker: error only
            dsimp only
            obtain ⟨he1, he2, _⟩ := error_fields (next l).2 "invalid char escape"
            refine ⟨by rw [he1, hi], by omega, fun h => by have := hlt h; omega, ?_⟩
            intro hatend
            obtain ⟨hx1, hx2⟩ := hend hatend
            exact ⟨by omega, hx2⟩

/-- The loop of `func (l *lexer) scanString(quote rune) (n int)`: `ch` is the
character just consumed; stop on the closing quote, fail on a newline or the
end of the input, consume an escape after a backslash and any other character
directly, counting one per iteration.  (The Go accumulator `n` is returned
instead as the count built up on the way out.) -/
def scanStringAux (quote : Int) (l : Lexer) (ch : Int) : Nat × Lexer :=
  if h1 : ch = quote then (0, l)
  else if h2 : ch = rn '\n' ∨ ch = eof then (0, l.error "literal not terminated")
  else if h3 : ch = rn '\\' then
    let r := scanStringAux quote (scanEscape l quote).2 (scanEscape l quote).1
    (r.1 + 1, r.2)
  else
    let r := scanStringAux quote (next l).2 (next l).1
    (r.1 + 1, r.2)
termination_by 2 * (l.input.length - l.endPos).toNat + (if ch = eof then 0 else 1)
decreasing_by
  · have hne : ¬ch = eof := fun hx => h2 (Or.inr hx)
    rw [if_neg hne]
    obtain ⟨hi, hmono, hlt, hend⟩ := scanEscape_progress l quote
    rw [hi]
    by_cases hc : l.endPos < (l.input.length : Int)
    · have h5 := hlt hc
      have h6 : ((if (scanEscape l quote).1 = eof then 0 else 1) : Nat) ≤ 1 := by split <;> omega
      omega
    · obtain ⟨he1, he2⟩ := hend (by omega)
      rw [he1, he2, if_pos rfl]
      omega
  · have hne : ¬ch = eof := fun hx => h2 (Or.inr hx)
    rw [if_neg hne]
    obtain ⟨hi, hmono, hub, hlt, hend⟩ := next_progress l
    rw [hi]
    by_cases hc : l.endPos < (l.input.length : Int)
    · have h5 := hlt hc
      have h6 : ((if (next l).1 = eof then 0 else 1) : Nat) ≤ 1 := by split <;> omega
      omega
    · obtain ⟨he1, he2⟩ := hend (by omega)
      rw [he1, he2, if_pos rfl]
      omega

/-- `func (l *lexer) scanString(quote rune) (n int)` -/
def scanString (l : Lexer) (quote : Int) : Nat × Lexer :=
  scanStringAux quote (next l).2 (next l).1

end Lexer

/-- The documented lexer-state invariant: `0 ≤ start ≤ end ≤ len(input)`. -/
def LexInv (l : Lexer) : Prop :=
  0 ≤ l.start ∧ l.start ≤ l.endPos ∧ l.endPos ≤ l.input.length

instance (l : Lexer) : Decidable (LexInv l) := by
  unfold LexInv; infer_instance

/-- The characters still ahead of the scanning head, as runes. -/
def runesFrom (l : Lexer) : List Int :=
  (l.input.drop l.endPos.toNat).map rn

/-- Length of the longest prefix consisting of valid base-`base` digits. -/
def validRun (base : Int) : List Int → Nat
  | [] => 0
  | r :: rest => if digitVal r < base then validRun base rest + 1 else 0

/-- The location counting described by the spec: line starts at 1 and
increments at each newline; column resets to 0 immediately after a newline and
otherwise increments once per character scanned. -/
def lineColFold (line column : Nat) : List Char → Nat × Nat
  | [] => (line, column)
  | c :: rest =>
    if c = '\n' then lineColFold (line + 1) 0 rest
    else lineColFold line (column + 1) rest

/-- Counts the leading characters of a list that belong to the valid set. -/
def memberRun (valid : List Char) : List Char → Nat
  | [] => 0
  | c :: rest => if containsRune valid (rn c) then memberRun valid rest + 1 else 0

/-- Length of the longest common prefix of two character lists: the number of
word characters a failed `acceptWord` attempt matches before its mismatch. -/
def matchLen : List Char → List Char → Nat
  | c :: cs, d :: ds => if c = d then matchLen cs ds + 1 else 0
  | _, _ => 0

namespace Lexer

theorem rn_inj : ∀ a b : Char, rn a = rn b → a = b := by
  intro a b h
  simp only [rn, Int.natCast_inj] at h
  exact Char.ext (UInt32.ext h)

theorem next_cons : ∀ (l : Lexer) (c : Char) (rest : List Char),
    0 ≤ l.endPos → l.input.drop l.endPos.toNat = c :: rest →
    next l = (rn c, { l with width := 1, endPos := l.endPos + 1 }) := by
  intro l c rest h0 hdrop
  have hlt : l.endPos.toNat < l.input.length := by
    by_contra hge
    rw [List.drop_eq_nil_of_le (by omega)] at hdrop
    exact List.noConfusion hdrop
  have hget : l.input.get? l.endPos.toNat = some c := by
    have h1 : (l.input.drop l.endPos.toNat).get? 0 = some c := by rw [hdrop]; rfl
    rwa [List.get?_drop, Nat.add_zero] at h1
  unfold next
  rw [if_neg (by omega)]
  unfold charAt
  rw [hget]

theorem next_nil : ∀ l : Lexer,
    0 ≤ l.endPos → l.input.drop l.endPos.toNat = [] →
    next l = (eof, { l with width := 0 }) := by
  intro l h0 hdrop
  have hge : l.input.length ≤ l.endPos.toNat := List.drop_eq_nil_iff.mp hdrop
  unfold next
  rw [if_pos (by omega)]

theorem drop_advance : ∀ (l : Lexer) (c : Char) (rest : List Char),
    0 ≤ l.endPos → l.input.drop l.endPos.toNat = c :: rest →
    l.input.drop (l.endPos + 1).toNat = rest := by
  intro l c rest h0 hdrop
  have : (l.endPos + 1).toNat = l.endPos.toNat + 1 := by omega
  rw [this, ← List.drop_drop]
  rw [hdrop]
  rfl

end Lexer

/-- C1: `reportError` records a diagnostic at offset `end - 1` only when no
error has been recorded yet, leaving everything else unchanged; when an error
was already recorded the call is a no-op, so of two errors raised in sequence
only the first is ever surfaced. -/
theorem error_first_wins :
    ∀ (l : Lexer) (m m2 : String),
      (l.err = none →
        l.error m = { l with err := some ⟨l.loc (l.endPos - 1), m⟩ }) ∧
      (l.err ≠ none → l.error m = l) ∧
      (l.err = none →
        ((l.error m).error m2).err = some ⟨l.loc (l.endPos - 1), m⟩) := by
  intro l m m2
  refine ⟨fun h => by unfold Lexer.error; rw [if_pos h], fun h => by unfold Lexer.error; rw [if_neg h], ?_⟩
  intro h
  unfold Lexer.error
  rw [if_pos h]
  rw [if_neg (by simp)]

/-- Closed instance of `error_first_wins`: on a fresh one-character state the
first message is recorded at `end - 1` and survives a second report. -/
theorem error_first_wins_witness :
    Lexer.error ⟨['a'], [], 0, 1, 1, none⟩ "boom" =
      { input := ['a'], tokens := [], start := 0, endPos := 1, width := 1,
        err := some ⟨⟨1, 0⟩, "boom"⟩ } ∧
    ((Lexer.error ⟨['a'], [], 0, 1, 1, none⟩ "boom").error "later").err =
      some ⟨⟨1, 0⟩, "boom"⟩ := by
  constructor
  · have h := (error_first_wins ⟨['a'], [], 0, 1, 1, none⟩ "boom" "later").1 rfl
    rw [h]; decide
  · have h := (error_first_wins ⟨['a'], [], 0, 1, 1, none⟩ "boom" "later").2.2 rfl
    rw [h]; decide

/-- C2 counterexample: in a state whose pending span is not empty
(`start = 1`, `end = 3` on input `a\nb`) `emitEOF` emits its token at the
location of offset `start - 1 = 0` (line 1, column 0), not at the location of
offset `end - 1 = 2` (line 2, column 0). -/
theorem emitEOF_counterexample :
    (Lexer.emitEOF ⟨['a', '\n', 'b'], [], 1, 3, 1, none⟩).tokens =
      [⟨⟨1, 0⟩, Kind.EOF, []⟩] ∧
    Lexer.loc ⟨['a', '\n', 'b'], [], 1, 3, 1, none⟩ (3 - 1) = ⟨2, 0⟩ ∧
    (⟨1, 0⟩ : Location) ≠ ⟨2, 0⟩ := by
  decide

/-- C2 (amended): `emitEOF` appends a terminal token of the end-of-input kind
whose location is computed from offset `start - 1`; in every state whose
pending span is empty (`start = end`, the situation in which `emitEOF` is
invoked) that offset equals `end - 1`. -/
theorem emitEOF_spec :
    ∀ l : Lexer,
      Lexer.emitEOF l =
        { l with tokens := l.tokens ++ [⟨l.loc (l.start - 1), Kind.EOF, []⟩],
                 start := l.endPos } ∧
      (l.start = l.endPos →
        Lexer.emitEOF l =
          { l with tokens := l.tokens ++ [⟨l.loc (l.endPos - 1), Kind.EOF, []⟩],
                   start := l.endPos }) := by
  intro l
  refine ⟨rfl, fun h => ?_⟩
  unfold Lexer.emitEOF
  rw [h]

/-- Closed instance of `emitEOF_spec` at an empty-pending-span state. -/
theorem emitEOF_spec_witness :
    Lexer.emitEOF ⟨['a', 'b'], [], 2, 2, 1, none⟩ =
      { input := ['a', 'b'], tokens := [⟨⟨1, 1⟩, Kind.EOF, []⟩], start := 2,
        endPos := 2, width := 1, err := none } := by
  have h := (emitEOF_spec ⟨['a', 'b'], [], 2, 2, 1, none⟩).2 rfl
  rw [h]; decide

theorem locAux_take : ∀ (rest : List Char) (i k line column : Nat),
    Lexer.locAux rest i ((i + k : Nat) : Int) line column =
      ⟨(lineColFold line column (rest.take k)).1, (lineColFold line column (rest.take k)).2⟩ := by
  intro rest
  induction rest with
  | nil => intro i k line column; cases k <;> rfl
  | cons c cs ih =>
    intro i k line column
    cases k with
    | zero =>
      unfold Lexer.locAux
      rw [if_pos (by omega)]
      rfl
    | succ m =>
      unfold Lexer.locAux
      rw [if_neg (by omega)]
      have harg : ((i + (m + 1) : Nat) : Int) = ((i + 1) + m : Nat) := by omega
      by_cases hc : c = '\n'
      · rw [if_pos hc, harg, ih (i + 1) m (line + 1) 0]
        simp only [List.take_succ_cons, lineColFold, if_pos hc]
      · rw [if_neg hc, harg, ih (i + 1) m line (column + 1)]
        simp only [List.take_succ_cons, lineColFold, if_neg hc]

/-- C6: `loc(offset)` computes exactly the (line, column) pair obtained by
scanning the first `offset` characters with line starting at 1 and bumped at
each newline, and column reset to 0 right after a newline and bumped once per
other character; the line equals 1 plus the number of newlines before the
offset, and on input `a\nb` the character `b` sits at line 2, column 0 while
`a` sits at line 1, column 0. -/
theorem loc_spec :
    (∀ (l : Lexer) (pos : Nat),
      l.loc (pos : Int) =
        ⟨(lineColFold 1 0 (l.input.take pos)).1, (lineColFold 1 0 (l.input.take pos)).2⟩) ∧
    (∀ (line column : Nat) (cs : List Char),
      (lineColFold line column cs).1 = line + cs.count '\n') ∧
    Lexer.loc ⟨['a', '\n', 'b'], [], 0, 0, 0, none⟩ 2 = ⟨2, 0⟩ ∧
    Lexer.loc ⟨['a', '\n', 'b'], [], 0, 0, 0, none⟩ 0 = ⟨1, 0⟩ := by
  refine ⟨?_, ?_, by decide, by decide⟩
  · intro l pos
    have h := locAux_take l.input 0 pos 1 0
    simpa [Lexer.loc] using h
  · intro line column cs
    induction cs generalizing line column with
    | nil => simp [lineColFold]
    | cons c cs ih =>
      by_cases hc : c = '\n'
      · subst hc
        simp only [lineColFold, if_pos rfl, ih, List.count_cons, beq_self_eq_true, if_true]
        omega
      · simp only [lineColFold, if_neg hc, ih, List.count_cons]
        have h2 : (c == '\n') = false := by
          simp only [beq_eq_false_iff_ne, ne_eq]
          exact hc
        simp only [h2, Bool.false_eq_true, if_false]
        omega

namespace Lexer

theorem next_frame : ∀ l : Lexer, (l.next).2.input = l.input ∧
    (l.next).2.start = l.start ∧ (l.next).2.tokens = l.tokens ∧ (l.next).2.err = l.err := by
  intro l
  unfold next
  split <;> exact ⟨rfl, rfl, rfl, rfl⟩

theorem next_width : ∀ l : Lexer, (l.next).2.width = 0 ∨ (l.next).2.width = 1 := by
  intro l
  unfold next
  split
  · exact Or.inl rfl
  · exact Or.inr rfl

theorem backup_next : ∀ l : Lexer, (Lexer.backup (l.next).2).endPos = l.endPos := by
  intro l
  unfold next Lexer.backup
  split <;> dsimp only <;> omega

theorem backup_frame : ∀ l : Lexer, (Lexer.backup l).input = l.input ∧
    (Lexer.backup l).start = l.start ∧ (Lexer.backup l).tokens = l.tokens ∧
    (Lexer.backup l).err = l.err := by
  intro l
  exact ⟨rfl, rfl, rfl, rfl⟩

theorem acceptWordAux_spec : ∀ (w : List Char) (l : Lexer) (pos : Int),
    ((acceptWordAux pos l w).2.input = l.input ∧
     (acceptWordAux pos l w).2.start = l.start ∧
     (acceptWordAux pos l w).2.tokens = l.tokens ∧
     (acceptWordAux pos l w).2.err = l.err) ∧
    ((acceptWordAux pos l w).1 = true →
      (acceptWordAux pos l w).2.endPos = l.endPos + w.length ∧
      (w ≠ [] → (acceptWordAux pos l w).2.endPos ≤ l.input.length)) ∧
    ((acceptWordAux pos l w).1 = false →
      (acceptWordAux pos l w).2.endPos = pos ∧
      ((acceptWordAux pos l w).2.width = 0 ∨ (acceptWordAux pos l w).2.width = 1)) := by
  intro w
  induction w with
  | nil =>
    intro l pos
    refine ⟨⟨rfl, rfl, rfl, rfl⟩, fun _ => ⟨by simp [acceptWordAux], fun h => absurd rfl h⟩,
      fun h => ?_⟩
    simp [acceptWordAux] at h
  | cons ch rest ih =>
    intro l pos
    obtain ⟨hf1, hf2, hf3, hf4⟩ := next_frame l
    unfold acceptWordAux
    split
    · -- mismatch on the first character of the word
      refine ⟨⟨hf1, hf2, hf3, hf4⟩, fun h => by simp at h, fun _ => ⟨rfl, ?_⟩⟩
      exact next_width l
    · -- the first character matched; the cursor advanced by one
      rename_i hmatch
      rw [not_not] at hmatch
      have hadv : (l.next).2.endPos = l.endPos + 1 := by
        obtain ⟨hi, _, _, hlt, hend⟩ := next_progress l
        by_cases hc : l.endPos < l.input.length
        · exact hlt hc
        · exfalso
          have := (hend (by omega)).2
          rw [this] at hmatch
          exact eof_ne_rn ch hmatch
      obtain ⟨⟨ih1, ih2, ih3, ih4⟩, ihT, ihF⟩ := ih (l.next).2 pos
      refine ⟨⟨ih1.trans hf1, ih2.trans hf2, ih3.trans hf3, ih4.trans hf4⟩, ?_, ?_⟩
      · intro ht
        obtain ⟨ha, hb⟩ := ihT ht
        constructor
        · rw [ha, hadv]
          simp only [List.length_cons]
          push_cast
          ring
        · intro _
          by_cases hr : rest = []
          · subst hr
            rw [ha, hadv]
            simp only [List.length_nil, Nat.cast_zero, add_zero]
            by_contra hgt
            have hc2 : (l.input.length : Int) ≤ l.endPos := by omega
            obtain ⟨_, he2⟩ := (next_progress l).2.2.2.2 hc2
            rw [he2] at hmatch
            exact eof_ne_rn ch hmatch
          · have hb2 := hb hr
            rw [hf1] at hb2
            exact hb2
      · intro hfalse
        obtain ⟨ha, hb⟩ := ihF hfalse
        exact ⟨ha, hb⟩

theorem memberRun_le : ∀ (valid cs : List Char), memberRun valid cs ≤ cs.length := by
  intro valid cs
  induction cs with
  | nil => simp [memberRun]
  | cons c rest ih =>
    simp only [memberRun, List.length_cons]
    split <;> omega

theorem acceptRun_spec : ∀ (n : Nat) (l : Lexer) (valid : List Char),
    (l.input.length - l.endPos).toNat = n → 0 ≤ l.endPos →
    l.acceptRun valid = { l with
      endPos := l.endPos + memberRun valid (l.input.drop l.endPos.toNat),
      width := if l.endPos + memberRun valid (l.input.drop l.endPos.toNat) < l.input.length
               then 1 else 0 } := by
  intro n
  induction n using Nat.strong_induction_on with
  | _ n ih =>
    intro l valid hn h0
    cases hdrop : l.input.drop l.endPos.toNat with
    | nil =>
      have hlen : l.input.length ≤ l.endPos.toNat := List.drop_eq_nil_iff.mp hdrop
      have hnext := next_nil l h0 hdrop
      unfold acceptRun
      rw [hnext]
      dsimp only
      rw [dif_neg (by rw [containsRune_eof_eq_false]; simp)]
      refine Lexer.ext rfl rfl rfl ?_ ?_ rfl
      · simp only [Lexer.backup, memberRun]
        omega
      · simp only [Lexer.backup, memberRun]
        rw [if_neg (by omega)]
    | cons c rest =>
      have hlen : l.endPos.toNat < l.input.length := by
        by_contra hge
        rw [List.drop_eq_nil_of_le (by omega)] at hdrop
        exact List.noConfusion hdrop
      have hnext := next_cons l c rest h0 hdrop
      unfold acceptRun
      rw [hnext]
      dsimp only
      by_cases hm : containsRune valid (rn c) = true
      · rw [dif_pos hm]
        have hdrop2 : l.input.drop (l.endPos + 1).toNat = rest := drop_advance l c rest h0 hdrop
        have hrec := ih (l.input.length - (l.endPos + 1)).toNat (by omega)
          { l with width := 1, endPos := l.endPos + 1 } valid (by dsimp only)
          (by dsimp only; omega)
        dsimp only at hrec
        rw [hdrop2] at hrec
        rw [hrec]
        refine Lexer.ext rfl rfl rfl ?_ ?_ rfl
        · simp only [memberRun, hm, if_true]
          push_cast
          ring
        · simp only [memberRun, hm, if_true]
          split_ifs <;> [rfl; skip; skip; rfl] <;> (exfalso; push_cast at *; omega)
      · rw [dif_neg hm]
        refine Lexer.ext rfl rfl rfl ?_ ?_ rfl
        · simp only [Lexer.backup, memberRun, hm, Bool.false_eq_true, if_false]
          omega
        · simp only [Lexer.backup, memberRun, hm, Bool.false_eq_true, if_false]
          rw [if_pos (by omega)]

end Lexer

/-- C7: `acceptWord` is all-or-nothing on the cursor offset: it returns true
with `end` advanced exactly past the full literal, or false with `end` equal
to its pre-call value; no partial consumption is observable in the cursor
position. -/
theorem acceptWord_all_or_nothing :
    ∀ (l : Lexer) (w : List Char),
      ((l.acceptWord w).1 = true → (l.acceptWord w).2.endPos = l.endPos + w.length) ∧
      ((l.acceptWord w).1 = false → (l.acceptWord w).2.endPos = l.endPos) := by
  intro l w
  obtain ⟨_, hT, hF⟩ := Lexer.acceptWordAux_spec w l l.endPos
  exact ⟨fun h => (hT h).1, fun h => (hF h).1⟩

/-- Closed instance of `acceptWord_all_or_nothing`: a full match advances past
the literal, a mismatch restores the entry offset. -/
theorem acceptWord_all_or_nothing_witness :
    (Lexer.acceptWord ⟨['a', 'b', 'c'], [], 0, 0, 0, none⟩ ['a', 'b']).1 = true ∧
    (Lexer.acceptWord ⟨['a', 'b', 'c'], [], 0, 0, 0, none⟩ ['a', 'b']).2.endPos = 2 ∧
    (Lexer.acceptWord ⟨['a', 'b', 'c'], [], 0, 0, 0, none⟩ ['x']).1 = false ∧
    (Lexer.acceptWord ⟨['a', 'b', 'c'], [], 0, 0, 0, none⟩ ['x']).2.endPos = 0 := by
  refine ⟨by decide, ?_, by decide, ?_⟩
  · have h := (acceptWord_all_or_nothing ⟨['a', 'b', 'c'], [], 0, 0, 0, none⟩ ['a', 'b']).1
      (by decide)
    rw [h]; decide
  · have h := (acceptWord_all_or_nothing ⟨['a', 'b', 'c'], [], 0, 0, 0, none⟩ ['x']).2
      (by decide)
    rw [h]

/-- C8: `accept` returns whether the next character belongs to the set and on
a mismatch leaves the cursor offset at its pre-call value; `acceptRun`
consumes exactly the leading run of set members and, thanks to the single
final backup, leaves the cursor just before the first rejected character (its
recorded width being that of the rejected character, or zero when the run was
stopped by the end of the input). -/
theorem accept_acceptRun_rollback :
    ∀ (l : Lexer) (valid : List Char),
      ((l.accept valid).1 = containsRune valid (l.next).1) ∧
      ((l.accept valid).1 = false → (l.accept valid).2.endPos = l.endPos) ∧
      (0 ≤ l.endPos →
        l.acceptRun valid = { l with
          endPos := l.endPos + memberRun valid (l.input.drop l.endPos.toNat),
          width := if l.endPos + memberRun valid (l.input.drop l.endPos.toNat) < l.input.length
                   then 1 else 0 }) := by
  intro l valid
  refine ⟨?_, ?_, fun h0 => Lexer.acceptRun_spec _ l valid rfl h0⟩
  · unfold Lexer.accept
    split
    · rename_i hc
      exact hc.symm
    · rename_i hc
      have hc' : containsRune valid (l.next).1 = false := by
        cases hcc : containsRune valid (l.next).1
        · rfl
        · exact absurd hcc hc
      exact hc'.symm
  · unfold Lexer.accept
    split
    · intro h
      simp at h
    · intro _
      exact Lexer.backup_next l

/-- Closed instance of `accept_acceptRun_rollback`: a rejected `accept` leaves
the cursor in place, and `acceptRun` stops just before the first rejected
character. -/
theorem accept_acceptRun_rollback_witness :
    (Lexer.accept ⟨['a', 'b'], [], 0, 0, 0, none⟩ ['z']).2.endPos = 0 ∧
    Lexer.acceptRun ⟨['a', 'b'], [], 0, 0, 0, none⟩ ['a'] =
      { input := ['a', 'b'], tokens := [], start := 0, endPos := 1, width := 1, err := none } := by
  constructor
  · have h := (accept_acceptRun_rollback ⟨['a', 'b'], [], 0, 0, 0, none⟩ ['z']).2.1 (by decide)
    rw [h]
  · have h := (accept_acceptRun_rollback ⟨['a', 'b'], [], 0, 0, 0, none⟩ ['a']).2.2 (by decide)
    rw [h]; decide

/-- C9: the documented lexer-state invariant `0 ≤ start ≤ end ≤ len(input)` is
preserved by every cursor and emitter operation: `next`, `peek`, `backup`
under its once-per-`next` contract, `accept`, `acceptRun`, `acceptWord`,
`emit`, `emitValue`, `ignore` and `emitEOF`. -/
theorem lexer_invariant_preservation :
    ∀ l : Lexer, LexInv l →
      LexInv (l.next).2 ∧ LexInv (l.peek).2 ∧ LexInv (Lexer.backup (l.next).2) ∧
      (∀ valid, LexInv (l.accept valid).2) ∧ (∀ valid, LexInv (l.acceptRun valid)) ∧
      (∀ w, LexInv (l.acceptWord w).2) ∧ (∀ t, LexInv (l.emit t)) ∧
      (∀ t value, LexInv (l.emitValue t value)) ∧ LexInv l.ignore ∧ LexInv l.emitEOF := by
  intro l hInv
  obtain ⟨h1, h2, h3⟩ := hInv
  obtain ⟨hf1, hf2, _, _⟩ := Lexer.next_frame l
  obtain ⟨hi, hmono, hub, hlt, hend⟩ := Lexer.next_progress l
  have hnextInv : LexInv (l.next).2 := by
    refine ⟨by rw [hf2]; exact h1, by rw [hf2]; omega, ?_⟩
    rw [hi]
    by_cases hc : l.endPos < (l.input.length : Int)
    · have := hlt hc
      omega
    · have := (hend (by omega)).1
      omega
  have hbackupnextInv : LexInv (Lexer.backup (l.next).2) := by
    have he := Lexer.backup_next l
    have hbi : (Lexer.backup (l.next).2).input = (l.next).2.input := rfl
    have hbs : (Lexer.backup (l.next).2).start = (l.next).2.start := rfl
    refine ⟨by rw [hbs, hf2]; exact h1, by rw [hbs, hf2, he]; exact h2, ?_⟩
    rw [he, hbi, hi]
    exact h3
  have hemitInv : ∀ t value, LexInv (l.emitValue t value) := by
    intro t value
    exact ⟨by dsimp only [Lexer.emitValue]; omega, by dsimp only [Lexer.emitValue]; omega,
      by dsimp only [Lexer.emitValue]; omega⟩
  refine ⟨hnextInv, hbackupnextInv, hbackupnextInv, ?_, ?_, ?_, ?_, hemitInv, ?_, ?_⟩
  · intro valid
    unfold Lexer.accept
    split
    · exact hnextInv
    · exact hbackupnextInv
  · intro valid
    rw [Lexer.acceptRun_spec _ l valid rfl (by omega)]
    have hle := Lexer.memberRun_le valid (l.input.drop l.endPos.toNat)
    rw [List.length_drop] at hle
    exact ⟨by dsimp only; omega, by dsimp only; omega, by dsimp only; omega⟩
  · intro w
    obtain ⟨⟨a1, a2, a3, a4⟩, aT, aF⟩ := Lexer.acceptWordAux_spec w l l.endPos
    by_cases hb : (Lexer.acceptWordAux l.endPos l w).1 = true
    · obtain ⟨e1, e2⟩ := aT hb
      refine ⟨by rw [show (l.acceptWord w).2.start = l.start from a2]; exact h1, ?_, ?_⟩
      · rw [show (l.acceptWord w).2.start = l.start from a2,
           show (l.acceptWord w).2.endPos = l.endPos + w.length from e1]
        omega
      · rw [show (l.acceptWord w).2.input = l.input from a1]
        by_cases hw : w = []
        · subst hw
          rw [show (l.acceptWord ([] : List Char)).2.endPos =
              l.endPos + (([] : List Char).length : Int) from e1]
          simpa using h3
        · exact (show (l.acceptWord w).2.endPos ≤ (l.input.length : Int) from e2 hw)
    · have hb' : (Lexer.acceptWordAux l.endPos l w).1 = false := by
        cases hcc : (Lexer.acceptWordAux l.endPos l w).1
        · rfl
        · exact absurd hcc hb
      obtain ⟨e1, _⟩ := aF hb'
      exact ⟨by rw [show (l.acceptWord w).2.start = l.start from a2]; exact h1,
        by rw [show (l.acceptWord w).2.start = l.start from a2,
               show (l.acceptWord w).2.endPos = l.endPos from e1]; exact h2,
        by rw [show (l.acceptWord w).2.endPos = l.endPos from e1,
               show (l.acceptWord w).2.input = l.input from a1]; exact h3⟩
  · intro t
    exact hemitInv t l.word
  · exact ⟨by dsimp only [Lexer.ignore]; omega, by dsimp only [Lexer.ignore]; omega,
      by dsimp only [Lexer.ignore]; omega⟩
  · exact ⟨by dsimp only [Lexer.emitEOF]; omega, by dsimp only [Lexer.emitEOF]; omega,
      by dsimp only [Lexer.emitEOF]; omega⟩

/-- Closed instance of `lexer_invariant_preservation` on a concrete valid
state. -/
theorem lexer_invariant_preservation_witness :
    LexInv ((⟨['a', 'b'], [], 0, 1, 1, none⟩ : Lexer).next).2 ∧
    LexInv ((⟨['a', 'b'], [], 0, 1, 1, none⟩ : Lexer).acceptRun ['b']) ∧
    LexInv ((⟨['a', 'b'], [], 0, 1, 1, none⟩ : Lexer).emitEOF) := by
  have h := lexer_invariant_preservation ⟨['a', 'b'], [], 0, 1, 1, none⟩ (by decide)
  exact ⟨h.1, h.2.2.2.2.1 ['b'], h.2.2.2.2.2.2.2.2.2⟩

/-- C10 counterexample: on input `xa` with the cursor at offset 1,
`acceptWord "ab"` matches `a` (so the attempt consumed one real character of
width 1) and then fails at the end of the input; the claim predicts the stale
width 1 (the width of the last character consumed), under which a subsequent
`backup` would land at offset 0, but the recorded width is actually 0 (set by
the final `next` that hit end-of-input), so `backup` leaves the cursor at the
restored offset 1, not below it. -/
theorem acceptWord_stale_width_counterexample :
    (Lexer.acceptWord ⟨['x', 'a'], [], 0, 1, 1, none⟩ ['a', 'b']).1 = false ∧
    (Lexer.next ⟨['x', 'a'], [], 0, 1, 1, none⟩).1 = rn 'a' ∧
    (Lexer.acceptWord ⟨['x', 'a'], [], 0, 1, 1, none⟩ ['a', 'b']).2.endPos = 1 ∧
    (Lexer.acceptWord ⟨['x', 'a'], [], 0, 1, 1, none⟩ ['a', 'b']).2.width = 0 ∧
    (Lexer.backup (Lexer.acceptWord ⟨['x', 'a'], [], 0, 1, 1, none⟩ ['a', 'b']).2).endPos = 1 := by
  decide

namespace Lexer

theorem acceptWordAux_width : ∀ (w : List Char) (l : Lexer) (pos : Int),
    0 ≤ l.endPos →
    (acceptWordAux pos l w).1 = false →
    (l.endPos + matchLen (l.input.drop l.endPos.toNat) w < l.input.length →
      (acceptWordAux pos l w).2.width = 1) ∧
    ((l.input.length : Int) ≤ l.endPos + matchLen (l.input.drop l.endPos.toNat) w →
      (acceptWordAux pos l w).2.width = 0) := by
  intro w
  induction w with
  | nil =>
    intro l pos h0 hfalse
    simp [acceptWordAux] at hfalse
  | cons ch rest ih =>
    intro l pos h0 hfalse
    cases hdrop : l.input.drop l.endPos.toNat with
    | nil =>
      have hlen : l.input.length ≤ l.endPos.toNat := List.drop_eq_nil_iff.mp hdrop
      have hnext := next_nil l h0 hdrop
      constructor
      · intro hc
        exfalso
        simp only [matchLen] at hc
        omega
      · intro _
        unfold acceptWordAux
        rw [hnext]
        dsimp only
        rw [if_pos (eof_ne_rn ch)]
    | cons c cs =>
      have hlen : l.endPos.toNat < l.input.length := by
        by_contra hge
        rw [List.drop_eq_nil_of_le (by omega)] at hdrop
        exact List.noConfusion hdrop
      have hnext := next_cons l c cs h0 hdrop
      by_cases hcc : c = ch
      · subst hcc
        have hrec : acceptWordAux pos l (c :: rest) = acceptWordAux pos (l.next).2 rest := by
          unfold acceptWordAux
          rw [hnext]
          dsimp only
          rw [if_neg (not_not_intro rfl)]
          rw [Lexer.acceptWordAux.eq_def]
        have he : ((l.next).2).endPos = l.endPos + 1 := by rw [hnext]
        have hi : ((l.next).2).input = l.input := by rw [hnext]
        have hfalse2 : (acceptWordAux pos (l.next).2 rest).1 = false := by
          rw [← hrec]
          exact hfalse
        obtain ⟨ih1, ih2⟩ := ih (l.next).2 pos (by rw [he]; omega) hfalse2
        rw [hi, he] at ih1 ih2
        have hdrop2 : l.input.drop (l.endPos + 1).toNat = cs := drop_advance l c cs h0 hdrop
        rw [hdrop2] at ih1 ih2
        rw [hrec]
        constructor
        · intro hc
          apply ih1
          simp only [matchLen, if_pos rfl] at hc
          push_cast at hc ⊢
          omega
        · intro hc
          apply ih2
          simp only [matchLen, if_pos rfl] at hc
          push_cast at hc ⊢
          omega
      · constructor
        · intro _
          unfold acceptWordAux
          rw [hnext]
          dsimp only
          rw [if_pos (fun h => hcc (rn_inj c ch h))]
        · intro hc
          exfalso
          simp only [matchLen, if_neg hcc] at hc
          omega

end Lexer

/-- C10 (amended): when `acceptWord` returns false the cursor offset `end` is
restored to its pre-call value but the recorded last-character width is not
restored, it is whatever the last `next()` of the failed attempt recorded:
when the mismatch was on a real character — the matched prefix of the word
ends strictly inside the buffer — the recorded width is `1`, the mismatched
character's width, and a subsequent `backup()` without an intervening `next()`
moves `end` to `end − 1`, below the restored position by exactly that stale
width; when the attempt instead ran into the end of the input the final
`next()` recorded width `0`, and the subsequent `backup()` leaves `end` at the
restored position. -/
theorem acceptWord_stale_width :
    ∀ (l : Lexer) (w : List Char),
      0 ≤ l.endPos →
      (l.acceptWord w).1 = false →
      (l.acceptWord w).2.endPos = l.endPos ∧
      (l.endPos + matchLen (l.input.drop l.endPos.toNat) w < l.input.length →
        (l.acceptWord w).2.width = 1 ∧
        (Lexer.backup (l.acceptWord w).2).endPos = l.endPos - 1) ∧
      ((l.input.length : Int) ≤ l.endPos + matchLen (l.input.drop l.endPos.toNat) w →
        (l.acceptWord w).2.width = 0 ∧
        (Lexer.backup (l.acceptWord w).2).endPos = l.endPos) := by
  intro l w h0 hfalse
  obtain ⟨_, _, hF⟩ := Lexer.acceptWordAux_spec w l l.endPos
  obtain ⟨e1, _⟩ := hF hfalse
  obtain ⟨w1, w0⟩ := Lexer.acceptWordAux_width w l l.endPos h0 hfalse
  have hb : (Lexer.backup (l.acceptWord w).2).endPos =
      (l.acceptWord w).2.endPos - (l.acceptWord w).2.width := rfl
  refine ⟨e1, ?_, ?_⟩
  · intro hc
    have hw : (l.acceptWord w).2.width = 1 := w1 hc
    refine ⟨hw, ?_⟩
    rw [hb, show (l.acceptWord w).2.endPos = l.endPos from e1, hw]
  · intro hc
    have hw : (l.acceptWord w).2.width = 0 := w0 hc
    refine ⟨hw, ?_⟩
    rw [hb, show (l.acceptWord w).2.endPos = l.endPos from e1, hw]
    omega

/-- Closed instance of `acceptWord_stale_width`, both cases: a real-character
mismatch (word `z` against input `a`) leaves the stale width 1 and the
following `backup` lands one position below the restored offset; an attempt
that runs into the end of the input (word `ab` against input `a`) leaves
width 0 and the following `backup` does not move. -/
theorem acceptWord_stale_width_witness :
    ((Lexer.acceptWord ⟨['a'], [], 0, 0, 1, none⟩ ['z']).2.width = 1 ∧
     (Lexer.backup (Lexer.acceptWord ⟨['a'], [], 0, 0, 1, none⟩ ['z']).2).endPos = 0 - 1) ∧
    ((Lexer.acceptWord ⟨['a'], [], 0, 0, 1, none⟩ ['a', 'b']).2.width = 0 ∧
     (Lexer.backup (Lexer.acceptWord ⟨['a'], [], 0, 0, 1, none⟩ ['a', 'b']).2).endPos = 0) := by
  constructor
  · exact (acceptWord_stale_width ⟨['a'], [], 0, 0, 1, none⟩ ['z']
      (by decide) (by decide)).2.1 (by decide)
  · exact (acceptWord_stale_width ⟨['a'], [], 0, 0, 1, none⟩ ['a', 'b']
      (by decide) (by decide)).2.2 (by decide)

namespace Lexer

theorem digitVal_eof : digitVal eof = 16 := by decide

theorem validRun_next_seq : ∀ (l : Lexer) (base : Int), base ≤ 16 → 0 ≤ l.endPos →
    validRun base ((l.next).1 :: runesFrom (l.next).2) = validRun base (runesFrom l) := by
  intro l base hb h0
  cases hdrop : l.input.drop l.endPos.toNat with
  | nil =>
    rw [next_nil l h0 hdrop]
    dsimp only
    unfold runesFrom
    dsimp only
    rw [hdrop]
    simp only [List.map_nil, validRun, digitVal_eof]
    rw [if_neg (by omega)]
  | cons c rest =>
    rw [next_cons l c rest h0 hdrop]
    dsimp only
    unfold runesFrom
    dsimp only
    rw [hdrop, drop_advance l c rest h0 hdrop]
    simp only [List.map_cons]

theorem scanDigits_err : ∀ (base : Int), base ≤ 16 →
    ∀ (n : Nat) (l : Lexer) (ch : Int), 0 ≤ l.endPos → l.err = none →
      ((∃ p, (l.scanDigits ch base n).2.err = some ⟨p, "invalid char escape"⟩) ↔
        validRun base (ch :: runesFrom l) < n) := by
  intro base hb n
  induction n with
  | zero =>
    intro l ch h0 hnone
    constructor
    · rintro ⟨p, hp⟩
      have h2 : l.err = some ⟨p, "invalid char escape"⟩ := hp
      rw [hnone] at h2
      cases h2
    · intro h
      exact absurd h (by omega)
  | succ m ih =>
    intro l ch h0 hnone
    simp only [scanDigits]
    split
    · rename_i hv
      have h0' : 0 ≤ (l.next).2.endPos := by
        have := (next_progress l).2.1
        omega
      have hnone' : (l.next).2.err = l.err := (next_frame l).2.2.2
      rw [ih (l.next).2 (l.next).1 h0' (by rw [hnone']; exact hnone)]
      rw [validRun_next_seq l base hb h0]
      simp only [validRun, if_pos hv]
      omega
    · rename_i hv
      constructor
      · intro _
        simp only [validRun, if_neg hv]
        omega
      · intro _
        refine ⟨l.loc (l.endPos - 1), ?_⟩
        show (l.error "invalid char escape").err = _
        unfold Lexer.error
        rw [if_pos hnone]

end Lexer

/-- C5: `scanDigits(startChar, base, count)` reports the error "invalid char
escape" exactly when fewer than `count` valid base-`base` digits are found
before a non-digit or end-of-input (the checked sequence being the start
character followed by the characters ahead of the cursor), and hexadecimal
digit validity is case-insensitive for the letters a-f/A-F. -/
theorem scanDigits_spec :
    ∀ (l : Lexer) (ch base : Int) (n : Nat),
      0 ≤ l.endPos → l.err = none → base ≤ 16 →
      ((∃ p, (l.scanDigits ch base n).2.err = some ⟨p, "invalid char escape"⟩) ↔
        validRun base (ch :: runesFrom l) < n) ∧
      (∀ pr ∈ [('A', 'a'), ('B', 'b'), ('C', 'c'), ('D', 'd'), ('E', 'e'), ('F', 'f')],
        digitVal (rn pr.1) = digitVal (rn pr.2) ∧ digitVal (rn pr.1) < 16) := by
  intro l ch base n h0 hnone hb
  exact ⟨Lexer.scanDigits_err base hb n l ch h0 hnone, by decide⟩

/-- Closed instance of `scanDigits_spec`: two hex digits requested but the
head is no digit at all, so the error is reported; and conversely a run with
enough digits reports nothing. -/
theorem scanDigits_spec_witness :
    (∃ p, (Lexer.scanDigits ⟨['a'], [], 0, 0, 0, none⟩ (rn 'g') 16 2).2.err =
      some ⟨p, "invalid char escape"⟩) ∧
    ¬(∃ p, (Lexer.scanDigits ⟨['F'], [], 0, 0, 0, none⟩ (rn '4') 16 2).2.err =
      some ⟨p, "invalid char escape"⟩) := by
  constructor
  · exact (scanDigits_spec ⟨['a'], [], 0, 0, 0, none⟩ (rn 'g') 16 2 (by decide) rfl
      (by decide)).1.mpr (by decide)
  · intro hex
    have := (scanDigits_spec ⟨['F'], [], 0, 0, 0, none⟩ (rn '4') 16 2 (by decide) rfl
      (by decide)).1.mp hex
    revert this
    decide

/-- C3: `scanEscape` dispatches on the character read after the backslash: a
marker among `a b f n r t v \` or the active quote consumes that marker and
then one further character; an initial octal digit 0-7 hands the
already-consumed triggering digit to `scanDigits` with base 8 and budget 3
(up to 3 octal digits total, the trigger included), reporting "invalid char
escape" exactly when fewer than 3 octal digits are found; after the markers
`x`, `u`, `U` exactly 2, 4 and 8 hexadecimal digits respectively must follow
(a freshly read character is handed to `scanDigits` with base 16, reporting
the error exactly when fewer follow); any other marker reports the error
"invalid char escape". -/
theorem scanEscape_spec :
    ∀ (l : Lexer) (q : Int),
      ((l.next).1 = rn 'a' ∨ (l.next).1 = rn 'b' ∨ (l.next).1 = rn 'f' ∨ (l.next).1 = rn 'n' ∨
          (l.next).1 = rn 'r' ∨ (l.next).1 = rn 't' ∨ (l.next).1 = rn 'v' ∨
          (l.next).1 = rn '\\' ∨ (l.next).1 = q →
        l.scanEscape q = ((l.next).2).next) ∧
      (rn '0' ≤ (l.next).1 → (l.next).1 ≤ rn '7' → (l.next).1 ≠ q →
        l.scanEscape q = ((l.next).2).scanDigits (l.next).1 8 3) ∧
      (0 ≤ l.endPos → l.err = none → rn '0' ≤ (l.next).1 → (l.next).1 ≤ rn '7' →
          (l.next).1 ≠ q →
        ((∃ p, (l.scanEscape q).2.err = some ⟨p, "invalid char escape"⟩) ↔
          validRun 8 ((l.next).1 :: runesFrom (l.next).2) < 3)) ∧
      ((l.next).1 = rn 'x' → (l.next).1 ≠ q →
        l.scanEscape q = (((l.next).2).next).2.scanDigits (((l.next).2).next).1 16 2) ∧
      ((l.next).1 = rn 'u' → (l.next).1 ≠ q →
        l.scanEscape q = (((l.next).2).next).2.scanDigits (((l.next).2).next).1 16 4) ∧
      ((l.next).1 = rn 'U' → (l.next).1 ≠ q →
        l.scanEscape q = (((l.next).2).next).2.scanDigits (((l.next).2).next).1 16 8) ∧
      (0 ≤ l.endPos → l.err = none → (l.next).1 ≠ q →
        ((l.next).1 = rn 'x' →
          ((∃ p, (l.scanEscape q).2.err = some ⟨p, "invalid char escape"⟩) ↔
            validRun 16 (runesFrom (l.next).2) < 2)) ∧
        ((l.next).1 = rn 'u' →
          ((∃ p, (l.scanEscape q).2.err = some ⟨p, "invalid char escape"⟩) ↔
            validRun 16 (runesFrom (l.next).2) < 4)) ∧
        ((l.next).1 = rn 'U' →
          ((∃ p, (l.scanEscape q).2.err = some ⟨p, "invalid char escape"⟩) ↔
            validRun 16 (runesFrom (l.next).2) < 8))) ∧
      (¬((l.next).1 = rn 'a' ∨ (l.next).1 = rn 'b' ∨ (l.next).1 = rn 'f' ∨
          (l.next).1 = rn 'n' ∨ (l.next).1 = rn 'r' ∨ (l.next).1 = rn 't' ∨
          (l.next).1 = rn 'v' ∨ (l.next).1 = rn '\\' ∨ (l.next).1 = q) →
        ¬(rn '0' ≤ (l.next).1 ∧ (l.next).1 ≤ rn '7') →
        (l.next).1 ≠ rn 'x' → (l.next).1 ≠ rn 'u' → (l.next).1 ≠ rn 'U' →
        l.scanEscape q = ((l.next).1, ((l.next).2).error "invalid char escape")) := by
  intro l q
  obtain ⟨ea, eb, ef, en, er, et, ev, ebs, e0, e1, e2', e3, e4, e5, e6, e7, ex, eu, eU⟩ :=
    (by decide :
      rn 'a' = 97 ∧ rn 'b' = 98 ∧ rn 'f' = 102 ∧ rn 'n' = 110 ∧ rn 'r' = 114 ∧
      rn 't' = 116 ∧ rn 'v' = 118 ∧ rn '\\' = 92 ∧ rn '0' = 48 ∧ rn '1' = 49 ∧
      rn '2' = 50 ∧ rn '3' = 51 ∧ rn '4' = 52 ∧ rn '5' = 53 ∧ rn '6' = 54 ∧
      rn '7' = 55 ∧ rn 'x' = 120 ∧ rn 'u' = 117 ∧ rn 'U' = 85)
  have h0next : 0 ≤ l.endPos → 0 ≤ (l.next).2.endPos := by
    intro h
    have := (Lexer.next_progress l).2.1
    omega
  have herrnext : (l.next).2.err = l.err := (Lexer.next_frame l).2.2.2
  have hA : (l.next).1 = rn 'a' ∨ (l.next).1 = rn 'b' ∨ (l.next).1 = rn 'f' ∨
      (l.next).1 = rn 'n' ∨ (l.next).1 = rn 'r' ∨ (l.next).1 = rn 't' ∨ (l.next).1 = rn 'v' ∨
      (l.next).1 = rn '\\' ∨ (l.next).1 = q →
      l.scanEscape q = ((l.next).2).next := by
    intro h
    simp only [Lexer.scanEscape]
    rw [if_pos h]
  have hB : rn '0' ≤ (l.next).1 → (l.next).1 ≤ rn '7' → (l.next).1 ≠ q →
      l.scanEscape q = ((l.next).2).scanDigits (l.next).1 8 3 := by
    intro h1 h2 hq
    simp only [Lexer.scanEscape]
    rw [if_neg (by omega), if_pos (by omega)]
  have hC : (l.next).1 = rn 'x' → (l.next).1 ≠ q →
      l.scanEscape q = (((l.next).2).next).2.scanDigits (((l.next).2).next).1 16 2 := by
    intro h hq
    simp only [Lexer.scanEscape]
    rw [if_neg (by omega), if_neg (by omega), if_pos h]
  have hD : (l.next).1 = rn 'u' → (l.next).1 ≠ q →
      l.scanEscape q = (((l.next).2).next).2.scanDigits (((l.next).2).next).1 16 4 := by
    intro h hq
    simp only [Lexer.scanEscape]
    rw [if_neg (by omega), if_neg (by omega), if_neg (by omega), if_pos h]
  have hE : (l.next).1 = rn 'U' → (l.next).1 ≠ q →
      l.scanEscape q = (((l.next).2).next).2.scanDigits (((l.next).2).next).1 16 8 := by
    intro h hq
    simp only [Lexer.scanEscape]
    rw [if_neg (by omega), if_neg (by omega), if_neg (by omega), if_neg (by omega), if_pos h]
  have hhex : 0 ≤ l.endPos → l.err = none → (l.next).1 ≠ q →
      ∀ (k : Nat), l.scanEscape q = (((l.next).2).next).2.scanDigits (((l.next).2).next).1 16 k →
      ((∃ p, (l.scanEscape q).2.err = some ⟨p, "invalid char escape"⟩) ↔
        validRun 16 (runesFrom (l.next).2) < k) := by
    intro h0 hnone hq k heq
    rw [heq]
    have h0' := h0next h0
    have h0'' : 0 ≤ (((l.next).2).next).2.endPos := by
      have := (Lexer.next_progress (l.next).2).2.1
      omega
    have herr'' : (((l.next).2).next).2.err = l.err := by
      rw [(Lexer.next_frame (l.next).2).2.2.2, herrnext]
    rw [Lexer.scanDigits_err 16 (by omega) k (((l.next).2).next).2 (((l.next).2).next).1 h0''
      (by rw [herr'']; exact hnone)]
    rw [Lexer.validRun_next_seq (l.next).2 16 (by omega) h0']
  refine ⟨hA, hB, ?_, hC, hD, hE, ?_, ?_⟩
  · intro h0 hnone h1 h2 hq
    rw [hB h1 h2 hq]
    exact Lexer.scanDigits_err 8 (by omega) 3 (l.next).2 (l.next).1 (h0next h0)
      (by rw [herrnext]; exact hnone)
  · intro h0 hnone hq
    exact ⟨fun hx => hhex h0 hnone hq 2 (hC hx hq),
      fun hu => hhex h0 hnone hq 4 (hD hu hq),
      fun hU => hhex h0 hnone hq 8 (hE hU hq)⟩
  · intro hn1 hn2 hn3 hn4 hn5
    simp only [Lexer.scanEscape]
    rw [if_neg hn1, if_neg (by omega), if_neg hn3, if_neg hn4, if_neg hn5]

/-- Closed instance of `scanEscape_spec`: the single-letter escape `\n`
consumes the marker and one further character, and the too-short octal escape
`\12x` reports "invalid char escape". -/
theorem scanEscape_spec_witness :
    Lexer.scanEscape ⟨['n', 'z'], [], 0, 0, 0, none⟩ (rn '"') =
      Lexer.next ((Lexer.next ⟨['n', 'z'], [], 0, 0, 0, none⟩).2) ∧
    (∃ p, (Lexer.scanEscape ⟨['1', '2', 'x'], [], 0, 0, 0, none⟩ (rn '"')).2.err =
      some ⟨p, "invalid char escape"⟩) := by
  constructor
  · exact (scanEscape_spec ⟨['n', 'z'], [], 0, 0, 0, none⟩ (rn '"')).1 (by decide)
  · exact ((scanEscape_spec ⟨['1', '2', 'x'], [], 0, 0, 0, none⟩ (rn '"')).2.2.1
      (by decide) rfl (by decide) (by decide) (by decide)).mpr (by decide)

namespace Lexer

theorem next_backup_next : ∀ l : Lexer, (Lexer.backup (l.next).2).next = l.next := by
  intro l
  by_cases hc : (l.input.length : Int) ≤ l.endPos
  · have h1 : l.next = (eof, { l with width := 0 }) := by
      unfold Lexer.next
      rw [if_pos hc]
    rw [h1]
    dsimp only
    have h2 : Lexer.backup ({ l with width := 0 } : Lexer) = { l with width := 0 } := by
      unfold Lexer.backup
      exact Lexer.ext rfl rfl rfl (by dsimp only; omega) rfl rfl
    rw [h2]
    unfold Lexer.next
    rw [if_pos (by dsimp only; omega)]
  · have h1 : l.next = (charAt l.input l.endPos, { l with width := 1, endPos := l.endPos + 1 }) := by
      unfold Lexer.next
      rw [if_neg hc]
    rw [h1]
    dsimp only
    have h2 : Lexer.backup ({ l with width := 1, endPos := l.endPos + 1 } : Lexer) =
        { l with width := 1 } := by
      unfold Lexer.backup
      exact Lexer.ext rfl rfl rfl (by dsimp only; omega) rfl rfl
    rw [h2]
    unfold Lexer.next
    rw [if_neg (by dsimp only; omega)]

theorem backup_next_err : ∀ (l : Lexer) (e : Option FileError),
    (Lexer.backup ({ l with err := e } : Lexer)).next =
      ((Lexer.backup l).next.1, { (Lexer.backup l).next.2 with err := e }) := by
  intro l e
  unfold Lexer.backup Lexer.next
  by_cases hc : (l.input.length : Int) ≤ l.endPos - l.width
  · rw [if_pos (by dsimp only; omega), if_pos (by dsimp only; omega)]
  · rw [if_neg (by dsimp only; omega), if_neg (by dsimp only; omega)]

theorem justRead_error : ∀ (l : Lexer) (ch : Int) (m : String),
    (Lexer.backup l).next = (ch, l) →
    (Lexer.backup (l.error m)).next = (ch, l.error m) := by
  intro l ch m h
  unfold Lexer.error
  split
  · rw [backup_next_err l (some ⟨l.loc (l.endPos - 1), m⟩), h]
  · exact h

theorem scanDigits_justRead : ∀ (n : Nat) (l : Lexer) (ch base : Int),
    (Lexer.backup l).next = (ch, l) →
    (Lexer.backup (l.scanDigits ch base n).2).next =
      ((l.scanDigits ch base n).1, (l.scanDigits ch base n).2) := by
  intro n
  induction n with
  | zero =>
    intro l ch base h
    exact h
  | succ m ih =>
    intro l ch base h
    simp only [scanDigits]
    split
    · apply ih
      rw [next_backup_next]
    · exact justRead_error l ch "invalid char escape" h

theorem scanEscape_justRead : ∀ (l : Lexer) (q : Int),
    (Lexer.backup (l.scanEscape q).2).next = ((l.scanEscape q).1, (l.scanEscape q).2) := by
  intro l q
  simp only [Lexer.scanEscape]
  split
  · rw [next_backup_next]
  · split
    · apply scanDigits_justRead
      rw [next_backup_next]
    · split
      · apply scanDigits_justRead
        rw [next_backup_next]
      · split
        · apply scanDigits_justRead
          rw [next_backup_next]
        · split
          · apply scanDigits_justRead
            rw [next_backup_next]
          · dsimp only
            apply justRead_error
            rw [next_backup_next]

theorem next_width_irrel : ∀ (l : Lexer) (w : Int),
    ({ l with width := w } : Lexer).next = l.next := by
  intro l w
  unfold Lexer.next
  dsimp only

theorem scanString_width_irrel : ∀ (l : Lexer) (q w : Int),
    Lexer.scanString ({ l with width := w }) q = Lexer.scanString l q := by
  intro l q w
  unfold Lexer.scanString
  rw [next_width_irrel]

theorem scanStringAux_stop_quote : ∀ (q : Int) (l : Lexer),
    Lexer.scanStringAux q l q = (0, l) := by
  intro q l
  rw [Lexer.scanStringAux.eq_def, dif_pos rfl]

theorem scanStringAux_stop_err : ∀ (q ch : Int) (l : Lexer),
    ch ≠ q → (ch = rn '\n' ∨ ch = eof) →
    Lexer.scanStringAux q l ch = (0, l.error "literal not terminated") := by
  intro q ch l h1 h2
  rw [Lexer.scanStringAux.eq_def, dif_neg h1, dif_pos h2]

theorem scanStringAux_escape_step : ∀ (q ch : Int) (l : Lexer),
    ch ≠ q → ¬(ch = rn '\n' ∨ ch = eof) → ch = rn '\\' →
    Lexer.scanStringAux q l ch =
      ((Lexer.scanStringAux q (l.scanEscape q).2 (l.scanEscape q).1).1 + 1,
       (Lexer.scanStringAux q (l.scanEscape q).2 (l.scanEscape q).1).2) := by
  intro q ch l h1 h2 h3
  rw [Lexer.scanStringAux.eq_def, dif_neg h1, dif_neg h2, dif_pos h3]

theorem scanStringAux_plain_step : ∀ (q ch : Int) (l : Lexer),
    ch ≠ q → ¬(ch = rn '\n' ∨ ch = eof) → ch ≠ rn '\\' →
    Lexer.scanStringAux q l ch =
      ((Lexer.scanStringAux q (l.next).2 (l.next).1).1 + 1,
       (Lexer.scanStringAux q (l.next).2 (l.next).1).2) := by
  intro q ch l h1 h2 h3
  rw [Lexer.scanStringAux.eq_def, dif_neg h1, dif_neg h2, dif_neg h3]

end Lexer

namespace Lexer

theorem scanString_clean_prefix : ∀ (cs : List Char) (l : Lexer) (q : Int) (rest : List Char),
    0 ≤ l.endPos →
    l.input.drop l.endPos.toNat = cs ++ rest →
    (∀ c ∈ cs, rn c ≠ q ∧ c ≠ '\n' ∧ c ≠ '\\') →
    l.scanString q =
      ((Lexer.scanString { l with endPos := l.endPos + cs.length, width := 1 } q).1 + cs.length,
       (Lexer.scanString { l with endPos := l.endPos + cs.length, width := 1 } q).2) := by
  intro cs
  induction cs with
  | nil =>
    intro l q rest h0 hdrop hclean
    have hrec : ({ l with endPos := l.endPos + (List.length ([] : List Char) : Int), width := 1 } :
        Lexer) = { l with width := 1 } :=
      Lexer.ext rfl rfl rfl (by dsimp only; simp) rfl rfl
    rw [hrec, scanString_width_irrel]
    simp only [List.length_nil, Nat.add_zero]
    exact Prod.mk.eta.symm
  | cons c cs' ih =>
    intro l q rest h0 hdrop hclean
    obtain ⟨hq, hnl, hbs⟩ := hclean c (List.mem_cons_self c cs')
    have hdrop' : l.input.drop l.endPos.toNat = c :: (cs' ++ rest) := by
      rw [hdrop]
      rfl
    have hnext := next_cons l c (cs' ++ rest) h0 hdrop'
    have hstep : l.scanString q =
        ((Lexer.scanString ({ l with width := 1, endPos := l.endPos + 1 }) q).1 + 1,
         (Lexer.scanString ({ l with width := 1, endPos := l.endPos + 1 }) q).2) := by
      show Lexer.scanStringAux q (l.next).2 (l.next).1 = _
      rw [hnext]
      dsimp only
      rw [scanStringAux_plain_step q (rn c) _ hq
        (by
          rintro (h | h)
          · exact hnl (rn_inj c '\n' h)
          · exact eof_ne_rn c h.symm)
        (fun hcontra => hbs (rn_inj c '\\' hcontra))]
      rfl
    rw [hstep]
    have hdrop'' : ({ l with width := 1, endPos := l.endPos + 1 } : Lexer).input.drop
        (({ l with width := 1, endPos := l.endPos + 1 } : Lexer).endPos).toNat = cs' ++ rest := by
      dsimp only
      exact drop_advance l c (cs' ++ rest) h0 hdrop'
    have hclean' : ∀ x ∈ cs', rn x ≠ q ∧ x ≠ '\n' ∧ x ≠ '\\' :=
      fun x hx => hclean x (List.mem_cons_of_mem c hx)
    have hih := ih ({ l with width := 1, endPos := l.endPos + 1 }) q rest
      (by dsimp only; omega) hdrop'' hclean'
    dsimp only at hih
    rw [hih]
    have hrec : ({ l with endPos := l.endPos + 1 + (List.length cs' : Int), width := 1 } : Lexer) =
        ({ l with endPos := l.endPos + (List.length (c :: cs') : Int), width := 1 } : Lexer) :=
      Lexer.ext rfl rfl rfl
        (by dsimp only; simp only [List.length_cons]; push_cast; ring) rfl rfl
    rw [hrec]
    refine Prod.ext ?_ rfl
    dsimp only
    simp only [List.length_cons]
    omega

end Lexer

/-- C4: `scanString(quote)` consumes the characters after the opening quote up
to and including the matching closing quote, counting one per logical element
(an escape sequence counts as one, any other consumed character counts as
one), and when a line break or the end of the input is reached before the
closing quote it records the error "literal not terminated" and returns. The
four clauses: a clean prefix (no quote, newline or backslash) followed by the
closing quote succeeds with the count equal to the prefix length and the
cursor just past the closing quote; the same prefix followed by a newline, or
running into the end of the input, yields the count so far and the error
located at the offending position; and a leading backslash contributes exactly
one count for the whole escape, scanning resuming after it. -/
theorem scanString_spec :
    (∀ (l : Lexer) (q : Int) (cs : List Char) (q' : Char) (rest : List Char),
      0 ≤ l.endPos → l.input.drop l.endPos.toNat = cs ++ q' :: rest → rn q' = q →
      (∀ c ∈ cs, rn c ≠ q ∧ c ≠ '\n' ∧ c ≠ '\\') →
      l.scanString q = (cs.length, { l with endPos := l.endPos + cs.length + 1, width := 1 })) ∧
    (∀ (l : Lexer) (q : Int) (cs rest : List Char),
      0 ≤ l.endPos → l.err = none → q ≠ rn '\n' →
      l.input.drop l.endPos.toNat = cs ++ '\n' :: rest →
      (∀ c ∈ cs, rn c ≠ q ∧ c ≠ '\n' ∧ c ≠ '\\') →
      l.scanString q = (cs.length,
        { l with endPos := l.endPos + cs.length + 1, width := 1,
                 err := some ⟨l.loc (l.endPos + cs.length), "literal not terminated"⟩ })) ∧
    (∀ (l : Lexer) (q : Int) (cs : List Char),
      0 ≤ l.endPos → l.err = none → q ≠ eof →
      l.input.drop l.endPos.toNat = cs →
      (∀ c ∈ cs, rn c ≠ q ∧ c ≠ '\n' ∧ c ≠ '\\') →
      l.scanString q = (cs.length,
        { l with endPos := l.endPos + cs.length, width := 0,
                 err := some ⟨l.loc (l.endPos + cs.length - 1), "literal not terminated"⟩ })) ∧
    (∀ (l : Lexer) (q : Int),
      (l.next).1 = rn '\\' → q ≠ rn '\\' →
      l.scanString q =
        ((Lexer.scanString (Lexer.backup (((l.next).2).scanEscape q).2) q).1 + 1,
         (Lexer.scanString (Lexer.backup (((l.next).2).scanEscape q).2) q).2)) := by
  refine ⟨?_, ?_, ?_, ?_⟩
  · -- closing quote after a clean prefix
    intro l q cs q' rest h0 hdrop hq' hclean
    have hL0 : 0 ≤ l.endPos + (cs.length : Int) := by omega
    have hLdrop : ({ l with endPos := l.endPos + (cs.length : Int), width := 1 } :
        Lexer).input.drop
        (({ l with endPos := l.endPos + (cs.length : Int), width := 1 } : Lexer).endPos).toNat =
        q' :: rest := by
      dsimp only
      have h1 : (l.endPos + (cs.length : Int)).toNat = l.endPos.toNat + cs.length := by omega
      rw [h1, ← List.drop_drop, hdrop]
      exact List.drop_left cs (q' :: rest)
    have hnext := Lexer.next_cons _ q' rest hL0 hLdrop
    have hXscan : Lexer.scanString
        ({ l with endPos := l.endPos + (cs.length : Int), width := 1 }) q =
        (0, { l with endPos := l.endPos + (cs.length : Int) + 1, width := 1 }) := by
      show Lexer.scanStringAux q _ _ = _
      rw [hnext]
      dsimp only
      rw [hq', Lexer.scanStringAux_stop_quote]
    rw [Lexer.scanString_clean_prefix cs l q (q' :: rest) h0 hdrop hclean, hXscan]
    refine Prod.ext (by dsimp only; omega) (by dsimp only)
  · -- newline after a clean prefix
    intro l q cs rest h0 hnone hqnl hdrop hclean
    have hL0 : 0 ≤ l.endPos + (cs.length : Int) := by omega
    have hLdrop : ({ l with endPos := l.endPos + (cs.length : Int), width := 1 } :
        Lexer).input.drop
        (({ l with endPos := l.endPos + (cs.length : Int), width := 1 } : Lexer).endPos).toNat =
        '\n' :: rest := by
      dsimp only
      have h1 : (l.endPos + (cs.length : Int)).toNat = l.endPos.toNat + cs.length := by omega
      rw [h1, ← List.drop_drop, hdrop]
      exact List.drop_left cs ('\n' :: rest)
    have hnext := Lexer.next_cons _ '\n' rest hL0 hLdrop
    have hXscan : Lexer.scanString
        ({ l with endPos := l.endPos + (cs.length : Int), width := 1 }) q =
        (0, Lexer.error
          ({ l with endPos := l.endPos + (cs.length : Int) + 1, width := 1 })
          "literal not terminated") := by
      show Lexer.scanStringAux q _ _ = _
      rw [hnext]
      dsimp only
      rw [Lexer.scanStringAux_stop_err q (rn '\n') _ (fun h => hqnl h.symm) (Or.inl rfl)]
    have herr : Lexer.error
        ({ l with endPos := l.endPos + (cs.length : Int) + 1, width := 1 })
        "literal not terminated" =
        { l with endPos := l.endPos + (cs.length : Int) + 1, width := 1,
                 err := some ⟨l.loc (l.endPos + (cs.length : Int)), "literal not terminated"⟩ } := by
      unfold Lexer.error
      rw [if_pos (by dsimp only; exact hnone)]
      refine Lexer.ext rfl rfl rfl rfl rfl ?_
      dsimp only
      unfold Lexer.loc
      dsimp only
      rw [show l.endPos + (cs.length : Int) + 1 - 1 = l.endPos + (cs.length : Int) from by ring]
    rw [Lexer.scanString_clean_prefix cs l q ('\n' :: rest) h0 hdrop hclean, hXscan, herr]
    refine Prod.ext (by dsimp only; omega) (by dsimp only)
  · -- end of input after a clean prefix
    intro l q cs h0 hnone hqeof hdrop hclean
    have hL0 : 0 ≤ l.endPos + (cs.length : Int) := by omega
    have hLdrop : ({ l with endPos := l.endPos + (cs.length : Int), width := 1 } :
        Lexer).input.drop
        (({ l with endPos := l.endPos + (cs.length : Int), width := 1 } : Lexer).endPos).toNat =
        ([] : List Char) := by
      dsimp only
      have h1 : (l.endPos + (cs.length : Int)).toNat = l.endPos.toNat + cs.length := by omega
      rw [h1, ← List.drop_drop, hdrop]
      exact List.drop_length cs
    have hnext := Lexer.next_nil _ hL0 hLdrop
    have hXscan : Lexer.scanString
        ({ l with endPos := l.endPos + (cs.length : Int), width := 1 }) q =
        (0, Lexer.error
          ({ l with endPos := l.endPos + (cs.length : Int), width := 0 })
          "literal not terminated") := by
      show Lexer.scanStringAux q _ _ = _
      rw [hnext]
      dsimp only
      rw [Lexer.scanStringAux_stop_err q eof _ (fun h => hqeof h.symm) (Or.inr rfl)]
    have herr : Lexer.error
        ({ l with endPos := l.endPos + (cs.length : Int), width := 0 })
        "literal not terminated" =
        { l with endPos := l.endPos + (cs.length : Int), width := 0,
                 err := some ⟨l.loc (l.endPos + (cs.length : Int) - 1), "literal not terminated"⟩ } := by
      unfold Lexer.error
      rw [if_pos (by dsimp only; exact hnone)]
      refine Lexer.ext rfl rfl rfl rfl rfl ?_
      dsimp only
      unfold Lexer.loc
      dsimp only
    rw [Lexer.scanString_clean_prefix cs l q [] h0 (by rw [hdrop, List.append_nil]) hclean,
      hXscan, herr]
    refine Prod.ext (by dsimp only; omega) (by dsimp only)
  · -- a backslash starts an escape that counts as one element
    intro l q hch hq
    have hjr := Lexer.scanEscape_justRead ((l.next).2) q
    have hR : Lexer.scanString (Lexer.backup (((l.next).2).scanEscape q).2) q =
        Lexer.scanStringAux q (((l.next).2).scanEscape q).2 (((l.next).2).scanEscape q).1 := by
      show Lexer.scanStringAux q ((Lexer.backup (((l.next).2).scanEscape q).2).next).2
        ((Lexer.backup (((l.next).2).scanEscape q).2).next).1 = _
      rw [hjr]
    rw [hR]
    show Lexer.scanStringAux q (l.next).2 (l.next).1 = _
    rw [hch]
    rw [Lexer.scanStringAux_escape_step q (rn '\\') _ (fun h => hq h.symm)
      (by decide) rfl]

/-- Closed instance of `scanString_spec`: scanning the unterminated literal
`"abc` (opening quote already consumed) yields the count 3 and the error
"literal not terminated" at the last character, and scanning `"ab"x` succeeds
with count 2, stopping just past the closing quote. -/
theorem scanString_spec_witness :
    Lexer.scanString ⟨['"', 'a', 'b', 'c'], [], 1, 1, 0, none⟩ (rn '"') =
      (3, ⟨['"', 'a', 'b', 'c'], [], 1, 4, 0,
        some ⟨⟨1, 3⟩, "literal not terminated"⟩⟩) ∧
    Lexer.scanString ⟨['"', 'a', 'b', '"', 'x'], [], 1, 1, 0, none⟩ (rn '"') =
      (2, ⟨['"', 'a', 'b', '"', 'x'], [], 1, 4, 1, none⟩) := by
  constructor
  · have h := scanString_spec.2.2.1 ⟨['"', 'a', 'b', 'c'], [], 1, 1, 0, none⟩ (rn '"')
      ['a', 'b', 'c'] (by decide) rfl (by decide) (by decide) (by decide)
    rw [h]
    decide
  · have h := scanString_spec.1 ⟨['"', 'a', 'b', '"', 'x'], [], 1, 1, 0, none⟩ (rn '"')
      ['a', 'b'] '"' ['x'] (by decide) (by decide) (by decide) (by decide)
    rw [h]
    decide
